import Mathlib

/-
Verification of the tagrep scanner (src/main.go, with the older variant in
src/unnamed/part_000).  The Go program walks directory trees, counts every
non-directory entry in `total`, matches ID3 tag fields of eligible files and
counts matches in `found`.  This file gives a shallow embedding of the data
model and of the functions `search`, `match`, `areStringsEqual`, `joinPaths`,
`initOptions` and the relevant parts of `main`, together with models of Go's
`filepath.Clean`, `filepath.Join`, `filepath.Ext` and `filepath.IsAbs` that
those functions call.
-/

set_option maxHeartbeats 1000000

namespace Tagrep

/-- An ID3v2 tag as the scanner sees it: the three frame accessors
`tag.Artist()`, `tag.Title()`, `tag.Year()`.  A file whose tag cannot be
opened, cannot be parsed, or has no frames is modelled by `Option.none`
at its use sites, since `match` returns early in all those cases. -/
structure Tag where
  artist : String
  title : String
  year : String
deriving DecidableEq

mutual
/-- One directory entry as returned by `readDir` (an `os.FileInfo`):
a plain file with its name, reported size and tag content, a readable
directory with its listing, or a directory whose own `readDir` call will
fail (`dirFail`), which makes `search` call `log.Fatal`. -/
inductive Entry where
  | file (name : String) (size : Int) (content : Option Tag)
  | dir (name : String) (size : Int) (entries : EntryList)
  | dirFail (name : String) (size : Int)

/-- A directory listing.  A separate mutual inductive (rather than
`List Entry`) so that all recursions over the tree are structural. -/
inductive EntryList where
  | nil
  | cons (e : Entry) (es : EntryList)
end

/-- The `fi.Size()` accessor of an entry. -/
def Entry.size : Entry → Int
  | .file _ s _ => s
  | .dir _ s _ => s
  | .dirFail _ s => s

/-- The `fi.IsDir()` accessor of an entry (a `dirFail` is a directory). -/
def Entry.isDir : Entry → Bool
  | .file _ _ _ => false
  | .dir _ _ _ => true
  | .dirFail _ _ => true

/-- The flag state captured before the run starts: `flagArtist`, `flagTitle`,
`flagYear`, `flagAbs`, `flagRecursive`, `flagIgnoreCase`, `flagExts` and the
working directory `wd` captured once in `main`. -/
structure Config where
  artist : String
  title : String
  year : String
  abs : Bool
  recursive : Bool
  ignoreCase : Bool
  exts : List String
  wd : String

/-- One root path given on the command line, together with what `readDir`
returns for it: `some` listing, or `none` when the listing fails. -/
structure Root where
  path : String
  listing : Option EntryList

/-- The aggregate state of one run: the two atomic counters `total` and
`found`, the paths printed for matches, and the paths handed to `match`
(recorded so that "the Matcher is never invoked" is expressible). -/
structure RunResult where
  total : Nat
  found : Nat
  paths : List String
  probed : List String
deriving DecidableEq

def RunResult.zero : RunResult := ⟨0, 0, [], []⟩

def RunResult.add (r s : RunResult) : RunResult :=
  { total := r.total + s.total
    found := r.found + s.found
    paths := r.paths ++ s.paths
    probed := r.probed ++ s.probed }

/-! ### Models of the Go path helpers -/

/-- Whether a character list begins with the path separator.  On Unix
`os.PathSeparator` is `'/'`. -/
def startsWithSep : List Char → Bool
  | [] => false
  | c :: _ => c == '/'

/-- Whether a character list ends with the path separator. -/
def lastIsSep (l : List Char) : Bool :=
  match l.getLast? with
  | none => false
  | some c => c == '/'

/-- The `joinPaths` function of src/unnamed/part_000: the fast two-argument
join that compares the last byte of `a` and the first byte of `b` with
`os.PathSeparator`.  (Go indexes `a[len(a)-1]` and `b[0]`, so it is only
called on non-empty strings; on an empty string this model treats the
missing byte as a non-separator.) -/
def joinPaths (a b : String) : String :=
  if lastIsSep a.data && startsWithSep b.data then
    a ++ String.mk b.data.tail
  else if !lastIsSep a.data && !startsWithSep b.data then
    a ++ "/" ++ b
  else
    a ++ b

/-- Split a character list into its non-empty path components, dropping
the separators: the component view on which `filepath.Clean` operates.
`acc` holds the (reversed) characters of the component being read. -/
def compsAux (acc : List Char) : List Char → List (List Char)
  | [] => if acc = [] then [] else [acc.reverse]
  | c :: rest =>
    if c = '/' then
      if acc = [] then compsAux [] rest else acc.reverse :: compsAux [] rest
    else
      compsAux (c :: acc) rest

def comps (l : List Char) : List (List Char) := compsAux [] l

/-- The component processing loop of Go's `filepath.Clean`: drop `"."`
components, let `".."` backtrack (or survive at the front of a relative
path, or vanish at the root of a rooted path), and keep everything else.
`stack` holds the kept components in reverse order. -/
def cleanStack (rooted : Bool) (stack : List (List Char)) : List (List Char) → List (List Char)
  | [] => stack.reverse
  | c :: cs =>
    if c = ['.'] then
      cleanStack rooted stack cs
    else if c = ['.', '.'] then
      if rooted then
        match stack with
        | [] => cleanStack rooted [] cs
        | _ :: rest => cleanStack rooted rest cs
      else
        match stack with
        | [] => cleanStack rooted [['.', '.']] cs
        | t :: rest =>
          if t = ['.', '.'] then cleanStack rooted (c :: t :: rest) cs
          else cleanStack rooted rest cs
    else
      cleanStack rooted (c :: stack) cs

/-- Interleave the kept components with separators again. -/
def joinComps : List (List Char) → List Char
  | [] => []
  | [c] => c
  | c :: cs => c ++ '/' :: joinComps cs

/-- Model of Go's `filepath.Clean` on Unix: empty input yields `"."`;
otherwise the components are processed by `cleanStack` and reassembled,
keeping the leading `'/'` of a rooted path and yielding `"."` when a
relative path cleans to nothing. -/
def goClean (s : String) : String :=
  match s.data with
  | [] => "."
  | c :: rest =>
    let rooted := startsWithSep (c :: rest)
    let st := cleanStack rooted [] (comps (c :: rest))
    if rooted then String.mk ('/' :: joinComps st)
    else
      match st with
      | [] => "."
      | _ => String.mk (joinComps st)

/-- Model of Go's `filepath.Join` on two elements: empty elements are
skipped, and the slash-joined rest is passed through `filepath.Clean`. -/
def goJoin (a b : String) : String :=
  if a = "" then (if b = "" then "" else goClean b)
  else goClean (a ++ "/" ++ b)

/-- Model of Go's `filepath.Ext`: scan backwards from the end of the
string until a separator; the suffix from the last dot (dot included),
or `""` when there is none.  `acc` carries the characters already passed,
in forward order; the argument list is the reversed string. -/
def goExtAux (acc : List Char) : List Char → String
  | [] => ""
  | c :: rest =>
    if c = '/' then ""
    else if c = '.' then String.mk ('.' :: acc)
    else goExtAux (c :: acc) rest

def goExt (s : String) : String := goExtAux [] s.data.reverse

/-- Model of Go's `filepath.IsAbs` on Unix: a non-empty path beginning
with `'/'`. -/
def isAbs (p : String) : Bool := startsWithSep p.data

/-! ### Matching -/

/-- Model of `strings.EqualFold` via case folding of both sides,
character by character. -/
def eqFold (a b : String) : Bool :=
  a.data.map Char.toLower == b.data.map Char.toLower

/-- The `areStringsEqual` function of src/main.go. -/
def areStringsEqual (a b : String) (ignoreCase : Bool) : Bool :=
  if ignoreCase then eqFold a b else a == b

/-- The three field comparisons of `match` (src/main.go lines 192-202):
each configured field must be equal under `areStringsEqual`, an empty
criterion imposes nothing, and the first failing field returns early. -/
def tagMatches (cfg : Config) (t : Tag) : Bool :=
  if cfg.artist != "" && !areStringsEqual t.artist cfg.artist cfg.ignoreCase then false
  else if cfg.title != "" && !areStringsEqual t.title cfg.title cfg.ignoreCase then false
  else if cfg.year != "" && !areStringsEqual t.year cfg.year cfg.ignoreCase then false
  else true

/-- Whether `match` reaches the `found` increment for a file with the
given content: the open/parse/`HasFrames` failures (`none`) never match,
otherwise the field comparisons decide. -/
def fileFound (cfg : Config) : Option Tag → Bool
  | none => false
  | some t => tagMatches cfg t

/-- The `inExts` map built in `main`: populated from `flagExts` unless the
list is empty or its first element is the wildcard `"*"`. -/
def inExts (cfg : Config) : List String :=
  match cfg.exts with
  | [] => []
  | x :: _ => if x = "*" then [] else cfg.exts

/-- The extension check of `search`: skip when `inExts` is non-empty and
does not contain `filepath.Ext(fi.Name())`. -/
def extAllowed (cfg : Config) (name : String) : Bool :=
  match inExts cfg with
  | [] => true
  | l => l.contains (goExt name)

/-- The reporting branch at the end of `match`: under `--abs`, a relative
path is joined against the working directory; everything else is printed
unchanged. -/
def reportPath (absFlag : Bool) (wd p : String) : String :=
  if absFlag && !isAbs p then goJoin wd p else p

/-- The whole of `match` (src/main.go): the path is recorded as probed;
on a successful field match `found` is incremented and the (possibly
absolutised) path printed. -/
def matchFile (cfg : Config) (path : String) (content : Option Tag) : RunResult :=
  let f := fileFound cfg content
  { total := 0
    found := if f then 1 else 0
    paths := if f then [reportPath cfg.abs cfg.wd path] else []
    probed := [path] }

/-! ### The scanner -/

mutual
/-- The body of the per-entry goroutine in `search` (src/main.go lines
119-146), sequentialised: a non-directory entry increments `total` first;
an entry below 20 bytes then resolves at once; a directory is descended
(via the synchronous recursive `search` call) only under `--recursive`,
and a failing `readDir` there is `log.Fatal`, modelled as `Except.error`;
a surviving file is filtered by extension and then handed to `match`. -/
def searchEntry (cfg : Config) (dir : String) : Entry → Except Unit RunResult
  | .file name size content =>
    if size < 20 then .ok { RunResult.zero with total := 1 }
    else
      if !extAllowed cfg name then .ok { RunResult.zero with total := 1 }
      else .ok ({ RunResult.zero with total := 1 }.add
        (matchFile cfg (goJoin dir name) content))
  | .dir name size entries =>
    if size < 20 then .ok RunResult.zero
    else if cfg.recursive then searchList cfg (goJoin dir name) entries
    else .ok RunResult.zero
  | .dirFail _ size =>
    if size < 20 then .ok RunResult.zero
    else if cfg.recursive then .error ()
    else .ok RunResult.zero

/-- The `search` loop over one directory listing: the contributions of
the entry tasks, combined; an aborted task graph aborts the whole run. -/
def searchList (cfg : Config) (dir : String) : EntryList → Except Unit RunResult
  | .nil => .ok RunResult.zero
  | .cons e es => do
    let r ← searchEntry cfg dir e
    let rs ← searchList cfg dir es
    .ok (r.add rs)
end

/-- One root `search(dir, &wg)` call from `main`: `readDir` on the root
itself can fail, which is also `log.Fatal`. -/
def runRoot (cfg : Config) (r : Root) : Except Unit RunResult :=
  match r.listing with
  | none => .error ()
  | some es => searchList cfg r.path es

/-- All root searches combined. -/
def runAll (cfg : Config) : List Root → Except Unit RunResult
  | [] => .ok RunResult.zero
  | r :: rs => do
    let a ← runRoot cfg r
    let b ← runAll cfg rs
    .ok (a.add b)

/-- Whether `initOptions` finds at least one frame to parse: exactly when
some of the three criteria flags is non-empty. -/
def criteriaConfigured (cfg : Config) : Bool :=
  !(cfg.artist == "" && cfg.title == "" && cfg.year == "")

/-- The observable outcome of one process run. -/
inductive RunOutcome where
  | usageError
  | earlyExit
  | fatal
  | done (r : RunResult)
deriving DecidableEq

/-- The control flow of `main`: no paths is a usage error (`os.Exit(1)`);
`initOptions` exits the process (`os.Exit(0)`) before anything is scanned
when no criteria are configured; otherwise the roots are scanned, and a
directory-listing failure anywhere aborts the run (`log.Fatal`), while a
completed run reports the final counters. -/
def runProgram (cfg : Config) (roots : List Root) : RunOutcome :=
  if roots.isEmpty then .usageError
  else if !criteriaConfigured cfg then .earlyExit
  else
    match runAll cfg roots with
    | .error _ => .fatal
    | .ok r => .done r

/-- The value of the `found` counter when the process ends: a process
that exits in `main` before the scan ends with the counter still zero. -/
def outcomeFound : RunOutcome → Nat
  | .done r => r.found
  | _ => 0

/-- The process exit code: `os.Exit(1)` for the usage error, `os.Exit(0)`
from `initOptions`, exit code 1 from `log.Fatal`, and 0 for a completed
run. -/
def outcomeExitCode : RunOutcome → Nat
  | .usageError => 1
  | .earlyExit => 0
  | .fatal => 1
  | .done _ => 0

/-! ### Reachable-entry counting (the specification's description of
`total`) -/

mutual
/-- Modelled from the spec: the number of non-directory entries reachable
under the effective recursion policy, "counted before the size-threshold
check" — every non-directory entry listed from a scanned directory counts
regardless of its size or extension, and a sub-directory's listing is
scanned only when the recursive flag is set and the scanner descends into
it (its reported size is at least the 20-byte minimum). -/
def reachEntry (cfg : Config) : Entry → Nat
  | .file _ _ _ => 1
  | .dirFail _ _ => 0
  | .dir _ size entries =>
    if cfg.recursive && !(size < 20) then reachList cfg entries else 0

/-- Reachable non-directory entries of one listing. -/
def reachList (cfg : Config) : EntryList → Nat
  | .nil => 0
  | .cons e es => reachEntry cfg e + reachList cfg es
end

/-- Reachable non-directory entries of one root. -/
def reachRoot (cfg : Config) (r : Root) : Nat :=
  match r.listing with
  | none => 0
  | some es => reachList cfg es

/-- Reachable non-directory entries of the whole run. -/
def reachAll (cfg : Config) (roots : List Root) : Nat :=
  (roots.map (reachRoot cfg)).sum

/-! ### Where a directory-listing failure is actually reached -/

mutual
/-- Whether the scanner, started on this entry, reaches a failing
`readDir`: only a `dirFail` that survives the size check and is descended
into under `--recursive`, or such a failure below a descended directory. -/
def entryFails (cfg : Config) : Entry → Bool
  | .file _ _ _ => false
  | .dirFail _ size => !(size < 20) && cfg.recursive
  | .dir _ size entries => !(size < 20) && cfg.recursive && listFails cfg entries

/-- Whether some entry task of this listing reaches a failing `readDir`. -/
def listFails (cfg : Config) : EntryList → Bool
  | .nil => false
  | .cons e es => entryFails cfg e || listFails cfg es
end

/-- Whether the search rooted at `r` reaches a failing `readDir`: the
root's own listing can fail, or a listed entry can. -/
def rootFails (cfg : Config) (r : Root) : Bool :=
  match r.listing with
  | none => true
  | some es => listFails cfg es

/-! ### Counter-event traces

The two counters are only ever mutated by `atomic.AddInt64(&total, 1)` and
`atomic.AddInt64(&found, 1)`.  To talk about their values at intermediate
points of a concurrent run, each goroutine is assigned the sequence of
counter increments it performs, and a run is an arbitrary interleaving of
those per-task sequences. -/

/-- One atomic counter increment. -/
inductive Event where
  | incTotal
  | incFound
deriving DecidableEq

/-- The number of `total` increments in an event sequence. -/
def countT (l : List Event) : Nat := l.count .incTotal

/-- The number of `found` increments in an event sequence. -/
def countF (l : List Event) : Nat := l.count .incFound

/-- The only shapes a single task's event sequence can take: no
increment, one `total` increment, or a `total` increment followed by a
`found` increment — never a `found` increment before or without the
`total` one. -/
def TaskShape (l : List Event) : Prop :=
  l = [] ∨ l = [.incTotal] ∨ l = [.incTotal, .incFound]

/-- The counter increments performed by the task of one file entry:
always `incTotal` first (the entry is not a directory), and `incFound`
after it exactly when the file survives the size check, the extension
filter and the field match. -/
def fileTrace (cfg : Config) (name : String) (size : Int) (content : Option Tag) :
    List Event :=
  if size < 20 then [.incTotal]
  else if !extAllowed cfg name then [.incTotal]
  else if fileFound cfg content then [.incTotal, .incFound]
  else [.incTotal]

mutual
/-- The per-task event sequences of the task spawned for one entry and of
everything it transitively spawns.  A directory entry's own task performs
no increments; under `--recursive` (and past the size check) it registers
one synchronous sub-search, itself increment-free, whose listing spawns
further tasks. -/
def entryTraces (cfg : Config) : Entry → List (List Event)
  | .file name size content => [fileTrace cfg name size content]
  | .dirFail _ _ => [[]]
  | .dir _ size entries =>
    [] :: (if !(size < 20) && cfg.recursive then [] :: traceList cfg entries else [])

/-- The per-task event sequences of all tasks spawned for a listing. -/
def traceList (cfg : Config) : EntryList → List (List Event)
  | .nil => []
  | .cons e es => entryTraces cfg e ++ traceList cfg es
end

/-- The per-task event sequences of one root `search` call (the root task
itself performs no increments). -/
def rootTraces (cfg : Config) (r : Root) : List (List Event) :=
  [] :: (match r.listing with
         | none => []
         | some es => traceList cfg es)

/-- The per-task event sequences of the whole run. -/
def runTraces (cfg : Config) : List Root → List (List Event)
  | [] => []
  | r :: rs => rootTraces cfg r ++ runTraces cfg rs

/-- The per-task event sequences the process ever spawns: none at all
when `main` exits on its usage check or `initOptions` exits before the
scan loop, and the sequences of the root searches otherwise. -/
def programTraces (cfg : Config) (roots : List Root) : List (List Event) :=
  if roots.isEmpty then []
  else if !criteriaConfigured cfg then []
  else runTraces cfg roots

/-- Interleaving relation: `Interleave ls tr` says the global event sequence `tr` is an interleaving
of the per-task sequences `ls` — at each step one task (at an arbitrary
position) contributes its next event, and the run is over when every
task's remaining sequence is empty.  Prefixes of such interleavings are
exactly the intermediate points of a concurrent run. -/
inductive Interleave : List (List Event) → List Event → Prop where
  | nil (ls : List (List Event)) : (∀ l ∈ ls, l = []) → Interleave ls []
  | take (ls1 : List (List Event)) (e : Event) (t : List Event)
      (ls2 : List (List Event)) (q : List Event) :
      Interleave (ls1 ++ t :: ls2) q →
      Interleave (ls1 ++ (e :: t) :: ls2) (e :: q)

/-! ### The wait-group discipline

`main` and `search` drive a single `sync.WaitGroup`: `main` does
`wg.Add(1)` per root before dispatching it, `search` does
`wg.Add(len(fileInfos))` before dispatching the entry goroutines, a
recursing entry task does `wg.Add(1)` before the synchronous sub-search,
and every task's sole `wg.Done` is deferred to its end.  The model: a
state is the wait-group counter plus the multiset of registered-but-not-
yet-Done tasks; a registered task steps by atomically registering all its
children (they are counted before any of them can possibly run) and
becoming `finishing`; a `finishing` task steps by its `Done`. -/

/-- The spawn tree of one registered task: its children are the tasks it
will register before its own `Done`. -/
inductive STree where
  | node (children : List STree)

mutual
/-- The spawn tree of the task of one entry: a file (or a skipped or
non-recursed directory) registers nothing; a descended directory
registers exactly one sub-search task, which in turn registers one task
per listed entry. -/
def entrySTree (cfg : Config) : Entry → STree
  | .file _ _ _ => .node []
  | .dirFail _ _ => .node []
  | .dir _ size entries =>
    if !(size < 20) && cfg.recursive then .node [.node (forestOf cfg entries)]
    else .node []

/-- The spawn trees of the tasks of one listing. -/
def forestOf (cfg : Config) : EntryList → List STree
  | .nil => []
  | .cons e es => entrySTree cfg e :: forestOf cfg es
end

/-- The spawn tree of one root `search` task: one task per listed entry
(none when the root listing fails, since `log.Fatal` precedes the
`wg.Add`). -/
def rootSTree (cfg : Config) (r : Root) : STree :=
  .node (match r.listing with
         | none => []
         | some es => forestOf cfg es)

/-- A task as the wait group sees it: registered and not yet run, or run
(children registered) and waiting only for its deferred `Done`. -/
inductive WTask where
  | toRun (t : STree)
  | finishing

/-- The state of `main`'s wait group when `wg.Wait()` is entered: the
counter holds one unit per root, and the pending set holds the root
search tasks (each was registered by `wg.Add(1)` before its dispatch). -/
def wgInit (cfg : Config) (roots : List Root) : Int × Multiset WTask :=
  ((roots.length : Int),
   ((roots.map fun r => WTask.toRun (rootSTree cfg r) : List WTask) : Multiset WTask))

/-- One scheduler step of the wait-group system.  `expand`: a registered
task runs its body — its children are added to the counter and to the
pending set in the same step (registration-before-dispatch: the code's
`wg.Add` precedes every `go` and every recursive `search`), and the task
keeps its own unit until its deferred `Done` (`retire`), so a parent's
unit is released only after all tasks it spawned are registered. -/
inductive WgStep : Int × Multiset WTask → Int × Multiset WTask → Prop where
  | expand (c : Int) (S : Multiset WTask) (cs : List STree) :
      WgStep (c, WTask.toRun (.node cs) ::ₘ S)
             (c + cs.length, WTask.finishing ::ₘ ((cs.map WTask.toRun : List WTask) : Multiset WTask) + S)
  | retire (c : Int) (S : Multiset WTask) :
      WgStep (c, WTask.finishing ::ₘ S) (c - 1, S)

/-! ### Concrete fixtures for instantiating hypotheses -/

/-- A configuration matching artist `"A"`, recursive, `.mp3` only. -/
def cfgW : Config := ⟨"A", "", "", false, true, false, [".mp3"], "/w"⟩

/-- A configuration with no match criteria at all. -/
def cfgEmpty : Config := ⟨"", "", "", false, true, false, [".mp3"], "/w"⟩

/-- The matching configuration with recursion disabled. -/
def cfgNoRec : Config := ⟨"A", "", "", false, false, false, [".mp3"], "/w"⟩

/-- A root listing holding exactly one matching file. -/
def rootSmall : Root := ⟨"d", some (.cons (.file "a.mp3" 30 (some ⟨"A", "", ""⟩)) .nil)⟩

/-- A root listing with a tiny file, a sub-directory and a matching file. -/
def rootW : Root :=
  ⟨"d", some (.cons (.file "tiny.mp3" 5 none)
         (.cons (.dir "sub" 4096 (.cons (.file "in.mp3" 100 (some ⟨"A", "", ""⟩)) .nil))
           (.cons (.file "a.mp3" 100 (some ⟨"A", "", ""⟩)) .nil)))⟩

/-- A case-insensitive configuration matching artist `"yung lean"`. -/
def cfgYLi : Config := ⟨"yung lean", "", "", false, false, true, ["*"], "/w"⟩

/-- The same criterion with case-insensitivity disabled. -/
def cfgYLs : Config := ⟨"yung lean", "", "", false, false, false, ["*"], "/w"⟩

/-! ## Theorems -/

/-- C4: an entry smaller than the 20-byte minimum resolves without
invoking the Matcher (no probed path), without touching `found` and
without printing anything, and it still increments `total` exactly when
it is not a directory (the count happens before the size check). -/
theorem small_entry_skipped (cfg : Config) (dir : String) (e : Entry)
    (h : e.size < 20) :
    searchEntry cfg dir e =
      .ok { total := if e.isDir then 0 else 1, found := 0, paths := [], probed := [] } := by
  cases e with
  | file name size content =>
    simp only [Entry.size] at h
    simp [searchEntry, Entry.isDir, h, RunResult.zero]
  | dir name size entries =>
    simp only [Entry.size] at h
    simp [searchEntry, Entry.isDir, h, RunResult.zero]
  | dirFail name size =>
    simp only [Entry.size] at h
    simp [searchEntry, Entry.isDir, h, RunResult.zero]

/-- Witness for C4: a 5-byte file is counted in `total` but never probed. -/
theorem small_entry_skipped_witness :
    (Entry.file "a.mp3" 5 (some ⟨"A", "", ""⟩)).size < 20 ∧
    searchEntry cfgW "d" (.file "a.mp3" 5 (some ⟨"A", "", ""⟩)) =
      .ok { total := 1, found := 0, paths := [], probed := [] } :=
  ⟨by decide, small_entry_skipped cfgW "d" _ (by decide)⟩

/-- C9: a directory whose reported size is below 20 bytes is never
descended into, even under `--recursive`, because the size check precedes
the directory branch: whatever its listing holds (matches, further
directories, even failing listings), it contributes nothing to `total`,
`found`, the reported paths or the probed paths, and cannot abort the
run. -/
theorem small_dir_not_descended (cfg : Config) (dir name : String) (size : Int)
    (entries : EntryList) (h : size < 20) :
    searchEntry cfg dir (.dir name size entries) = .ok RunResult.zero := by
  simp [searchEntry, h]

/-- Witness for C9: a 10-byte directory containing a failing directory is
skipped under a recursive configuration. -/
theorem small_dir_not_descended_witness :
    (10 : Int) < 20 ∧
    searchEntry cfgW "d" (.dir "s" 10 (.cons (.dirFail "z" 30) .nil)) = .ok RunResult.zero :=
  ⟨by decide, small_dir_not_descended cfgW "d" "s" 10 _ (by decide)⟩

/-- C5: with no match criteria configured (`--artist`, `--title` and
`--year` all empty) the program short-circuits in `initOptions` before
any scanning begins: the outcome is the early exit, no task is ever
spawned, `found` is zero at exit, and the outcome does not depend on the
directory trees at all. -/
theorem no_criteria_short_circuit (cfg : Config) (roots : List Root)
    (hempty : cfg.artist = "" ∧ cfg.title = "" ∧ cfg.year = "")
    (hroots : roots ≠ []) :
    runProgram cfg roots = .earlyExit ∧
    outcomeFound (runProgram cfg roots) = 0 ∧
    programTraces cfg roots = [] ∧
    (∀ roots' : List Root, roots' ≠ [] → runProgram cfg roots' = runProgram cfg roots) := by
  obtain ⟨h1, h2, h3⟩ := hempty
  have hC : criteriaConfigured cfg = false := by
    simp [criteriaConfigured, h1, h2, h3]
  have hne : roots.isEmpty = false := by
    simpa [List.isEmpty_iff] using hroots
  refine ⟨?_, ?_, ?_, ?_⟩
  · simp [runProgram, hC, hne]
  · simp [runProgram, outcomeFound, hC, hne]
  · simp [programTraces, hC, hne]
  · intro roots' hr'
    have hne' : roots'.isEmpty = false := by
      simpa [List.isEmpty_iff] using hr'
    simp [runProgram, hC, hne, hne']

/-- Witness for C5: the empty-criteria configuration exits early even on
a root whose listing would be fatal to a real scan. -/
theorem no_criteria_short_circuit_witness :
    runProgram cfgEmpty [⟨"d", none⟩] = .earlyExit ∧
    outcomeFound (runProgram cfgEmpty [⟨"d", none⟩]) = 0 ∧
    programTraces cfgEmpty [⟨"d", none⟩] = [] :=
  have h := no_criteria_short_circuit cfgEmpty [⟨"d", none⟩] ⟨rfl, rfl, rfl⟩ (by simp)
  ⟨h.1, h.2.1, h.2.2.1⟩

/-- C6: a file that reaches the field comparisons counts as found exactly
when every configured field equals the file's tag field under the active
comparison — plain equality by default, case-folded equality under
`--ignore-case` — while unconfigured (empty) criteria impose no
constraint; and the tag artist `"Yung Lean"` matches the criterion
`"yung lean"` precisely when case-insensitivity is enabled. -/
theorem field_match_semantics :
    (∀ (cfg : Config) (t : Tag),
      fileFound cfg (some t) = true ↔
        ((cfg.artist = "" ∨ areStringsEqual t.artist cfg.artist cfg.ignoreCase = true) ∧
         (cfg.title = "" ∨ areStringsEqual t.title cfg.title cfg.ignoreCase = true) ∧
         (cfg.year = "" ∨ areStringsEqual t.year cfg.year cfg.ignoreCase = true))) ∧
    areStringsEqual "Yung Lean" "yung lean" true = true ∧
    areStringsEqual "Yung Lean" "yung lean" false = false ∧
    fileFound cfgYLi (some ⟨"Yung Lean", "", ""⟩) = true ∧
    fileFound cfgYLs (some ⟨"Yung Lean", "", ""⟩) = false := by
  refine ⟨?_, by decide, by decide, by decide, by decide⟩
  intro cfg t
  by_cases h1 : cfg.artist = "" <;> by_cases h2 : cfg.title = "" <;>
    by_cases h3 : cfg.year = "" <;>
    cases hA : areStringsEqual t.artist cfg.artist cfg.ignoreCase <;>
    cases hT : areStringsEqual t.title cfg.title cfg.ignoreCase <;>
    cases hY : areStringsEqual t.year cfg.year cfg.ignoreCase <;>
    simp [fileFound, tagMatches, h1, h2, h3, hA, hT, hY]

/-- Witness for C6: the iff applied at the case-insensitive fixture. -/
theorem field_match_semantics_witness :
    fileFound cfgYLi (some ⟨"Yung Lean", "", ""⟩) = true :=
  (field_match_semantics.1 cfgYLi ⟨"Yung Lean", "", ""⟩).mpr
    ⟨Or.inr (by decide), Or.inl rfl, Or.inl rfl⟩

/-! ### Path helper lemmas -/

theorem string_data_append (a b : String) : (a ++ b).data = a.data ++ b.data := rfl

theorem startsWithSep_append (l m : List Char) (h : l ≠ []) :
    startsWithSep (l ++ m) = startsWithSep l := by
  cases l with
  | nil => exact absurd rfl h
  | cons c rest => rfl

/-- Cleaning a rooted path yields a rooted path. -/
theorem isAbs_goClean (s : String) (h : startsWithSep s.data = true) :
    isAbs (goClean s) = true := by
  unfold goClean
  cases hs : s.data with
  | nil => rw [hs] at h; simp [startsWithSep] at h
  | cons c rest =>
    rw [hs] at h
    simp only [h, if_true]
    simp [isAbs, startsWithSep]

/-- C7: the reporting transformation at the end of `match` leaves an
already-absolute path unchanged, and (when the captured working directory
is absolute, as `os.Getwd` guarantees) it is idempotent: re-applying it
to a reported path changes nothing. -/
theorem report_abs_idem (f : Bool) (wd p : String) :
    (isAbs p = true → reportPath f wd p = p) ∧
    (isAbs wd = true → reportPath f wd (reportPath f wd p) = reportPath f wd p) := by
  constructor
  · intro h; simp [reportPath, h]
  · intro hwd
    cases f with
    | false => simp [reportPath]
    | true =>
      by_cases hp : isAbs p = true
      · simp [reportPath, hp]
      · have hwdne : wd.data ≠ [] := by
          intro he
          rw [isAbs, he] at hwd
          simp [startsWithSep] at hwd
        have hwdne' : ¬ wd = "" := by
          intro he; subst he; exact hwdne rfl
        have habs : isAbs (goJoin wd p) = true := by
          unfold goJoin
          rw [if_neg hwdne']
          apply isAbs_goClean
          have hd : (wd ++ "/" ++ p).data = (wd.data ++ ['/']) ++ p.data := by
            simp [string_data_append]
          rw [hd, startsWithSep_append _ _ (by simp [hwdne]),
            startsWithSep_append _ _ hwdne]
          exact hwd
        simp only [reportPath, hp, Bool.not_eq_true] at *
        simp [reportPath, hp, habs]

/-- Witness for C7: the transformation fixes an absolute path and is
idempotent on a relative one. -/
theorem report_abs_idem_witness :
    reportPath true "/w" "/a" = "/a" ∧
    reportPath true "/w" (reportPath true "/w" "a/b") = reportPath true "/w" "a/b" :=
  ⟨(report_abs_idem true "/w" "/a").1 (by decide),
   (report_abs_idem true "/w" "a/b").2 (by decide)⟩

/-! ### Component-level lemmas about cleaning -/

/-- Splitting distributes over a separator: the components of
`l1 ++ '/' :: l2` are the components of `l1` followed by those of `l2`. -/
theorem compsAux_append_sep (l1 : List Char) :
    ∀ (acc l2 : List Char),
      compsAux acc (l1 ++ '/' :: l2) = compsAux acc l1 ++ compsAux [] l2 := by
  induction l1 with
  | nil =>
    intro acc l2
    by_cases h : acc = ([] : List Char) <;> simp [compsAux, h]
  | cons c l1 ih =>
    intro acc l2
    by_cases hc : c = '/'
    · subst hc
      by_cases h : acc = ([] : List Char) <;> simp [compsAux, h, ih]
    · simp only [List.cons_append, compsAux, if_neg hc]
      exact ih (c :: acc) l2

theorem comps_append_sep (l1 l2 : List Char) :
    comps (l1 ++ '/' :: l2) = comps l1 ++ comps l2 :=
  compsAux_append_sep l1 [] l2

/-- A leading separator does not change the components. -/
theorem comps_sep_cons (l : List Char) : comps ('/' :: l) = comps l := by
  simpa using comps_append_sep [] l

/-- A trailing separator does not change the components. -/
theorem comps_append_sep_nil (l : List Char) : comps (l ++ ['/']) = comps l := by
  have h := comps_append_sep l []
  simpa [comps, compsAux] using h

/-- Cleaning only looks at emptiness, the leading separator, and the
components of its input. -/
theorem goClean_congr (s t : String) (hs : s.data ≠ []) (ht : t.data ≠ [])
    (hsep : startsWithSep s.data = startsWithSep t.data)
    (hc : comps s.data = comps t.data) : goClean s = goClean t := by
  unfold goClean
  cases hsd : s.data with
  | nil => exact absurd hsd hs
  | cons c rest =>
    cases htd : t.data with
    | nil => exact absurd htd ht
    | cons c' rest' =>
      rw [hsd, htd] at hsep hc
      simp only [hsep, hc]

/-- C10 counterexample: `joinPaths` is not a drop-in `filepath.Join` on
all non-empty inputs — `filepath.Join` cleans the result while
`joinPaths` does not, so they already differ on `(".", "x")`. -/
theorem joinPaths_ne_goJoin :
    ("." : String) ≠ "" ∧ ("x" : String) ≠ "" ∧
    joinPaths "." "x" ≠ goJoin "." "x" := by
  refine ⟨by decide, by decide, ?_⟩
  decide

/-- C10 amended: for all non-empty `a` and `b`, `joinPaths a b` agrees
with `filepath.Join(a, b)` up to `filepath.Clean` — `Join` returns the
cleaned `joinPaths` result, so the two coincide exactly on inputs whose
raw concatenation is already clean. -/
theorem goJoin_eq_clean_joinPaths (a b : String) (ha : a ≠ "") (hb : b ≠ "") :
    goJoin a b = goClean (joinPaths a b) := by
  have had : a.data ≠ [] := by
    intro h
    apply ha
    cases a with
    | mk l => cases h; rfl
  have hbd : b.data ≠ [] := by
    intro h
    apply hb
    cases b with
    | mk l => cases h; rfl
  have hdata : (a ++ "/" ++ b).data = a.data ++ '/' :: b.data := by
    simp [string_data_append]
  rw [goJoin, if_neg ha]
  by_cases hL : lastIsSep a.data = true <;> by_cases hS : startsWithSep b.data = true
  · -- a ends in '/', b begins with '/': joinPaths drops b's first byte
    have hlast : a.data.getLast? = some '/' := by
      unfold lastIsSep at hL
      cases hg : a.data.getLast? with
      | none => rw [hg] at hL; simp at hL
      | some c =>
        rw [hg] at hL
        simp only [beq_iff_eq] at hL
        rw [hL]
    obtain ⟨a1, ha1⟩ := List.getLast?_eq_some_iff.mp hlast
    obtain ⟨b1, hb1⟩ : ∃ b1, b.data = '/' :: b1 := by
      cases hbb : b.data with
      | nil => exact absurd hbb hbd
      | cons c bs =>
        rw [hbb] at hS
        simp only [startsWithSep, beq_iff_eq] at hS
        exact ⟨bs, by rw [hS]⟩
    rw [joinPaths, if_pos (by rw [hL, hS]; rfl)]
    apply goClean_congr
    · rw [hdata]; simp
    · rw [string_data_append]
      simp [had]
    · rw [hdata, string_data_append]
      rw [startsWithSep_append _ _ had, startsWithSep_append _ _ had]
    · rw [hdata, string_data_append, comps_append_sep, hb1, comps_sep_cons]
      show comps a.data ++ comps b1 = comps (a.data ++ (String.mk b1).data)
      rw [ha1]
      show comps (a1 ++ ['/']) ++ comps b1 = comps ((a1 ++ ['/']) ++ b1)
      rw [comps_append_sep_nil, List.append_assoc]
      show comps a1 ++ comps b1 = comps (a1 ++ '/' :: b1)
      rw [comps_append_sep]
  · -- a ends in '/', b does not begin with '/': joinPaths concatenates
    have hlast : a.data.getLast? = some '/' := by
      unfold lastIsSep at hL
      cases hg : a.data.getLast? with
      | none => rw [hg] at hL; simp at hL
      | some c =>
        rw [hg] at hL
        simp only [beq_iff_eq] at hL
        rw [hL]
    obtain ⟨a1, ha1⟩ := List.getLast?_eq_some_iff.mp hlast
    rw [joinPaths, if_neg (by simp [hS]), if_neg (by simp [hL])]
    apply goClean_congr
    · rw [hdata]; simp
    · rw [string_data_append]; simp [had]
    · rw [hdata, string_data_append, startsWithSep_append _ _ had,
        startsWithSep_append _ _ had]
    · rw [hdata, string_data_append, ha1, List.append_assoc, List.append_assoc]
      show comps (a1 ++ '/' :: ('/' :: b.data)) = comps (a1 ++ '/' :: b.data)
      rw [comps_append_sep, comps_append_sep, comps_sep_cons]
  · -- a does not end in '/', b begins with '/': joinPaths concatenates
    obtain ⟨b1, hb1⟩ : ∃ b1, b.data = '/' :: b1 := by
      cases hbb : b.data with
      | nil => exact absurd hbb hbd
      | cons c bs =>
        rw [hbb] at hS
        simp only [startsWithSep, beq_iff_eq] at hS
        exact ⟨bs, by rw [hS]⟩
    rw [joinPaths, if_neg (by simp [hL]), if_neg (by simp [hS])]
    apply goClean_congr
    · rw [hdata]; simp
    · rw [string_data_append]; simp [had]
    · rw [hdata, string_data_append, startsWithSep_append _ _ had,
        startsWithSep_append _ _ had]
    · rw [hdata, string_data_append, hb1, comps_append_sep, comps_sep_cons,
        comps_append_sep]
  · -- neither: joinPaths inserts the separator itself, identical strings
    rw [joinPaths, if_neg (by simp [hL]), if_pos (by simp [hL, hS])]

/-- Witness for the amended C10 on concrete non-empty inputs. -/
theorem goJoin_eq_clean_joinPaths_witness :
    goJoin "a" "b" = goClean (joinPaths "a" "b") :=
  goJoin_eq_clean_joinPaths "a" "b" (by decide) (by decide)

/-! ### The value of `total` after a completed run -/

mutual
/-- A completed entry task contributes to `total` exactly the number of
reachable non-directory entries below it. -/
theorem searchEntry_total (cfg : Config) (dir : String) (e : Entry) :
    ∀ r : RunResult, searchEntry cfg dir e = .ok r → r.total = reachEntry cfg e := by
  cases e with
  | file name size content =>
    intro r h
    rw [searchEntry] at h
    split at h
    · injection h with h2; rw [← h2]; rfl
    · split at h
      · injection h with h2; rw [← h2]; rfl
      · injection h with h2
        rw [← h2]
        simp [RunResult.add, matchFile, RunResult.zero, reachEntry]
  | dir name size entries =>
    intro r h
    rw [searchEntry] at h
    split at h
    · next hsz =>
      injection h with h2
      rw [← h2]
      simp [reachEntry, RunResult.zero, hsz]
    · next hsz =>
      split at h
      · next hrec =>
        have := searchList_total cfg (goJoin dir name) entries r h
        simp [reachEntry, hrec, hsz, this]
      · next hrec =>
        injection h with h2
        rw [← h2]
        simp only [Bool.not_eq_true] at hrec
        simp [reachEntry, hrec, RunResult.zero]
  | dirFail name size =>
    intro r h
    rw [searchEntry] at h
    split at h
    · injection h with h2; rw [← h2]; rfl
    · split at h
      · exact absurd h (by simp)
      · injection h with h2; rw [← h2]; rfl

/-- A completed listing contributes to `total` exactly the number of
reachable non-directory entries below it. -/
theorem searchList_total (cfg : Config) (dir : String) (es : EntryList) :
    ∀ r : RunResult, searchList cfg dir es = .ok r → r.total = reachList cfg es := by
  cases es with
  | nil =>
    intro r h
    injection h with h2
    rw [← h2]
    rfl
  | cons e es =>
    intro r h
    rw [searchList] at h
    cases he : searchEntry cfg dir e with
    | error u => rw [he] at h; exact absurd h (by simp [Bind.bind, Except.bind])
    | ok re =>
      rw [he] at h
      cases hes : searchList cfg dir es with
      | error u =>
        rw [hes] at h
        exact absurd h (by simp [Bind.bind, Except.bind])
      | ok res =>
        rw [hes] at h
        simp only [Bind.bind, Except.bind, pure, Except.pure] at h
        injection h with h2
        rw [← h2]
        have h1 := searchEntry_total cfg dir e re he
        have h3 := searchList_total cfg dir es res hes
        simp [RunResult.add, h1, h3, reachList]
end

/-- The `total` contribution of a completed root search. -/
theorem runRoot_total (cfg : Config) (r : Root) (res : RunResult)
    (h : runRoot cfg r = .ok res) : res.total = reachRoot cfg r := by
  rw [runRoot] at h
  cases hl : r.listing with
  | none => rw [hl] at h; exact absurd h (by simp)
  | some es =>
    rw [hl] at h
    rw [reachRoot, hl]
    exact searchList_total cfg r.path es res h

/-- The `total` of a completed multi-root scan. -/
theorem runAll_total (cfg : Config) (roots : List Root) :
    ∀ res : RunResult, runAll cfg roots = .ok res → res.total = reachAll cfg roots := by
  induction roots with
  | nil =>
    intro res h
    injection h with h2
    rw [← h2]
    rfl
  | cons r rs ih =>
    intro res h
    rw [runAll] at h
    cases hr : runRoot cfg r with
    | error u => rw [hr] at h; exact absurd h (by simp [Bind.bind, Except.bind])
    | ok a =>
      rw [hr] at h
      cases hrs : runAll cfg rs with
      | error u => rw [hrs] at h; exact absurd h (by simp [Bind.bind, Except.bind])
      | ok b =>
        rw [hrs] at h
        simp only [Bind.bind, Except.bind, pure, Except.pure] at h
        injection h with h2
        rw [← h2]
        have h1 := runRoot_total cfg r a hr
        have h3 := ih b hrs
        simp [RunResult.add, h1, h3, reachAll, reachRoot]

/-- C2: after a completed run, `total` equals the number of non-directory
entries reachable under the effective recursion policy, counted before
the size-threshold check and before the extension filter — every
non-directory entry listed from a scanned directory counts regardless of
size or extension, and sub-directory listings contribute only when
recursion is enabled (see `reachEntry`). -/
theorem run_total_reachable (cfg : Config) (roots : List Root) (res : RunResult)
    (h : runProgram cfg roots = .done res) : res.total = reachAll cfg roots := by
  rw [runProgram] at h
  split at h
  · exact absurd h (by simp)
  · split at h
    · exact absurd h (by simp)
    · cases hra : runAll cfg roots with
      | error u => rw [hra] at h; exact absurd h (by simp)
      | ok r =>
        rw [hra] at h
        injection h with h2
        rw [h2] at hra
        exact runAll_total cfg roots res hra

/-- Witness for C2: one root with a small file, an ignored directory (no
recursion) and a large non-matching file; `total` is 2. -/
theorem run_total_reachable_witness :
    runProgram cfgNoRec [rootW] =
      .done { total := 2, found := 1, paths := ["d/a.mp3"], probed := ["d/a.mp3"] } ∧
    ({ total := 2, found := 1, paths := ["d/a.mp3"], probed := ["d/a.mp3"] } : RunResult).total =
      reachAll cfgNoRec [rootW] :=
  ⟨by rfl, run_total_reachable cfgNoRec [rootW] _ (by rfl)⟩

/-! ### Fatality of directory-listing failures -/

mutual
/-- An entry task aborts the run exactly when it reaches a failing
`readDir`. -/
theorem searchEntry_fail (cfg : Config) (dir : String) (e : Entry) :
    searchEntry cfg dir e = .error () ↔ entryFails cfg e = true := by
  cases e with
  | file name size content =>
    rw [searchEntry]
    constructor
    · intro h
      split at h
      · exact absurd h (by simp)
      · split at h <;> exact absurd h (by simp)
    · intro h; exact absurd h (by simp [entryFails])
  | dir name size entries =>
    rw [searchEntry, entryFails]
    constructor
    · intro h
      split at h
      · exact absurd h (by simp)
      · next hsz =>
        split at h
        · next hrec =>
          have := (searchEntry_fail_list cfg (goJoin dir name) entries).mp h
          simp [hsz, hrec, this]
        · exact absurd h (by simp)
    · intro h
      simp only [Bool.and_eq_true, Bool.not_eq_true'] at h
      obtain ⟨⟨hsz, hrec⟩, hfail⟩ := h
      rw [if_neg (of_decide_eq_false hsz), if_pos hrec]
      exact (searchEntry_fail_list cfg (goJoin dir name) entries).mpr hfail
  | dirFail name size =>
    rw [searchEntry, entryFails]
    constructor
    · intro h
      split at h
      · exact absurd h (by simp)
      · next hsz =>
        split at h
        · next hrec => simp [hsz, hrec]
        · exact absurd h (by simp)
    · intro h
      simp only [Bool.and_eq_true, Bool.not_eq_true'] at h
      obtain ⟨hsz, hrec⟩ := h
      rw [if_neg (of_decide_eq_false hsz), if_pos hrec]

/-- A listing's task graph aborts the run exactly when some entry task
reaches a failing `readDir`. -/
theorem searchEntry_fail_list (cfg : Config) (dir : String) (es : EntryList) :
    searchList cfg dir es = .error () ↔ listFails cfg es = true := by
  cases es with
  | nil =>
    rw [searchList, listFails]
    constructor
    · intro h; exact absurd h (by simp)
    · intro h; exact absurd h (by simp)
  | cons e es =>
    rw [searchList, listFails]
    cases he : searchEntry cfg dir e with
    | error u =>
      cases u
      have h1 := (searchEntry_fail cfg dir e).mp he
      simp [Bind.bind, Except.bind, h1]
    | ok re =>
      have h1 : entryFails cfg e = false := by
        cases hef : entryFails cfg e
        · rfl
        · exact absurd ((searchEntry_fail cfg dir e).mpr hef) (by simp [he])
      cases hes : searchList cfg dir es with
      | error u =>
        cases u
        have h3 := (searchEntry_fail_list cfg dir es).mp hes
        simp [Bind.bind, Except.bind, he, h1, h3]
      | ok res =>
        have h3 : listFails cfg es = false := by
          cases hlf : listFails cfg es
          · rfl
          · exact absurd ((searchEntry_fail_list cfg dir es).mpr hlf) (by simp [hes])
        simp [Bind.bind, Except.bind, he, hes, h1, h3, pure, Except.pure]
end

/-- A root search aborts the run exactly when it reaches a failing
`readDir` (possibly its own listing). -/
theorem runRoot_fail (cfg : Config) (r : Root) :
    runRoot cfg r = .error () ↔ rootFails cfg r = true := by
  rw [runRoot, rootFails]
  cases r.listing with
  | none => simp
  | some es => exact searchEntry_fail_list cfg r.path es

/-- The multi-root scan aborts exactly when some root search does. -/
theorem runAll_fail (cfg : Config) (roots : List Root) :
    runAll cfg roots = .error () ↔ roots.any (rootFails cfg) = true := by
  induction roots with
  | nil => simp [runAll]
  | cons r rs ih =>
    rw [runAll, List.any_cons]
    cases hr : runRoot cfg r with
    | error u =>
      cases u
      have h1 := (runRoot_fail cfg r).mp hr
      simp [Bind.bind, Except.bind, h1]
    | ok a =>
      have h1 : rootFails cfg r = false := by
        cases hrf : rootFails cfg r
        · rfl
        · exact absurd ((runRoot_fail cfg r).mpr hrf) (by simp [hr])
      cases hrs : runAll cfg rs with
      | error u =>
        cases u
        have h3 := ih.mp hrs
        simp [Bind.bind, Except.bind, hr, h1, h3]
      | ok b =>
        have h3 : rs.any (rootFails cfg) = false := by
          cases hany : rs.any (rootFails cfg)
          · rfl
          · exact absurd (ih.mpr hany) (by simp [hrs])
        simp [Bind.bind, Except.bind, hr, hrs, h1, h3, pure, Except.pure]

/-- C8: when the scan reaches any failing directory listing, the run is
fatal: the process terminates with a non-zero exit code and no final
result is reported — the contributions of every other task, sibling
subtree and root path are discarded. -/
theorem dir_failure_fatal (cfg : Config) (roots : List Root)
    (hc : criteriaConfigured cfg = true)
    (hf : roots.any (rootFails cfg) = true) :
    runProgram cfg roots = .fatal ∧
    outcomeExitCode (runProgram cfg roots) = 1 ∧
    ∀ res : RunResult, runProgram cfg roots ≠ .done res := by
  have hne : roots.isEmpty = false := by
    cases roots with
    | nil => simp at hf
    | cons r rs => rfl
  have herr : runAll cfg roots = .error () := (runAll_fail cfg roots).mpr hf
  have hrun : runProgram cfg roots = .fatal := by
    rw [runProgram, hne, if_neg (by simp), if_neg (by simp [hc]), herr]
  exact ⟨hrun, by rw [hrun]; rfl, by intro res h; rw [hrun] at h; exact absurd h (by simp)⟩

/-- Witness for C8: a matching file in one root cannot save a run whose
other root has a failing listing. -/
theorem dir_failure_fatal_witness :
    runProgram cfgW [rootW, ⟨"e", none⟩] = .fatal ∧
    outcomeExitCode (runProgram cfgW [rootW, ⟨"e", none⟩]) = 1 :=
  have h := dir_failure_fatal cfgW [rootW, ⟨"e", none⟩] (by decide) (by rfl)
  ⟨h.1, h.2.1⟩

/-! ### The counter invariant under every interleaving -/

theorem fileTrace_shape (cfg : Config) (name : String) (size : Int)
    (content : Option Tag) : TaskShape (fileTrace cfg name size content) := by
  rw [TaskShape, fileTrace]
  split
  · simp
  · split
    · simp
    · split <;> simp

mutual
/-- Every task trace an entry generates has one of the three shapes. -/
theorem entryTraces_shape (cfg : Config) (e : Entry) :
    ∀ l ∈ entryTraces cfg e, TaskShape l := by
  cases e with
  | file name size content =>
    intro l hl
    rw [entryTraces] at hl
    simp only [List.mem_singleton] at hl
    rw [hl]
    exact fileTrace_shape cfg name size content
  | dir name size entries =>
    intro l hl
    rw [entryTraces] at hl
    rcases List.mem_cons.mp hl with h | h
    · rw [h]; exact Or.inl rfl
    · split at h
      · rcases List.mem_cons.mp h with h2 | h2
        · rw [h2]; exact Or.inl rfl
        · exact traceList_shape cfg entries l h2
      · exact absurd h (by simp)
  | dirFail name size =>
    intro l hl
    rw [entryTraces] at hl
    simp only [List.mem_singleton] at hl
    rw [hl]
    exact Or.inl rfl

/-- Every task trace a listing generates has one of the three shapes. -/
theorem traceList_shape (cfg : Config) (es : EntryList) :
    ∀ l ∈ traceList cfg es, TaskShape l := by
  cases es with
  | nil => intro l hl; exact absurd hl (by simp [traceList])
  | cons e es =>
    intro l hl
    rw [traceList] at hl
    rcases List.mem_append.mp hl with h | h
    · exact entryTraces_shape cfg e l h
    · exact traceList_shape cfg es l h
end

theorem rootTraces_shape (cfg : Config) (r : Root) :
    ∀ l ∈ rootTraces cfg r, TaskShape l := by
  intro l hl
  rw [rootTraces] at hl
  rcases List.mem_cons.mp hl with h | h
  · rw [h]; exact Or.inl rfl
  · cases hr : r.listing with
    | none => rw [hr] at h; exact absurd h (by simp)
    | some es => rw [hr] at h; exact traceList_shape cfg es l h

theorem runTraces_shape (cfg : Config) (roots : List Root) :
    ∀ l ∈ runTraces cfg roots, TaskShape l := by
  induction roots with
  | nil => intro l hl; exact absurd hl (by simp [runTraces])
  | cons r rs ih =>
    intro l hl
    rw [runTraces] at hl
    rcases List.mem_append.mp hl with h | h
    · exact rootTraces_shape cfg r l h
    · exact ih l h

/-- A prefix of a shaped task trace never holds more `found` than `total`
increments. -/
theorem shape_pre_count {l p : List Event} (hs : TaskShape l) (hp : p <+: l) :
    p.count Event.incFound ≤ p.count Event.incTotal := by
  obtain ⟨t, ht⟩ := hp
  rcases hs with h | h | h <;> rw [h] at ht
  · obtain ⟨h1, h2⟩ := List.append_eq_nil.mp ht
    rw [h1]; simp
  · cases p with
    | nil => simp
    | cons a p' =>
      injection ht with h1 h2
      obtain ⟨h3, h4⟩ := List.append_eq_nil.mp h2
      rw [h1, h3]
      decide
  · cases p with
    | nil => simp
    | cons a p' =>
      injection ht with h1 h2
      cases p' with
      | nil => rw [h1]; decide
      | cons b p'' =>
        injection h2 with h3 h4
        obtain ⟨h5, h6⟩ := List.append_eq_nil.mp h4
        rw [h1, h3, h5]
        decide

/-- Counting an event in an interleaving sums the per-task counts. -/
theorem interleave_count {ls : List (List Event)} {tr : List Event}
    (h : Interleave ls tr) (x : Event) :
    tr.count x = (ls.map fun l => l.count x).sum := by
  induction h with
  | nil ls hl =>
    rw [List.count_nil]
    symm
    apply List.sum_eq_zero
    intro n hn
    obtain ⟨l, hl', rfl⟩ := List.mem_map.mp hn
    rw [hl l hl']
    rfl
  | take ls1 e t ls2 q hq ih =>
    simp only [List.map_append, List.sum_append, List.map_cons, List.sum_cons] at ih ⊢
    rw [List.count_cons, ih, List.count_cons]
    generalize (if (e == x) = true then 1 else 0) = k
    omega

/-- Pointwise `Forall₂` is preserved by appending. -/
theorem forall2_app {α β : Type _} {R : α → β → Prop} :
    ∀ {as : List α} {cs : List β}, List.Forall₂ R as cs →
    ∀ {bs : List α} {ds : List β}, List.Forall₂ R bs ds →
    List.Forall₂ R (as ++ bs) (cs ++ ds) := by
  intro as cs h1
  induction h1 with
  | nil => intro bs ds h2; exact h2
  | cons hr hrest ih =>
    intro bs ds h2
    exact List.Forall₂.cons hr (ih h2)

/-- Decompose a pointwise `Forall₂` along an append-cons split of its
right-hand list. -/
theorem forall2_split {α β : Type _} {R : α → β → Prop} :
    ∀ (ys : List β) (b : β) (zs : List β) (xs : List α),
      List.Forall₂ R xs (ys ++ b :: zs) →
      ∃ us v ws, xs = us ++ v :: ws ∧
        List.Forall₂ R us ys ∧ R v b ∧ List.Forall₂ R ws zs := by
  intro ys
  induction ys with
  | nil =>
    intro b zs xs h
    simp only [List.nil_append] at h
    cases h with
    | cons hr ht => exact ⟨[], _, _, rfl, List.Forall₂.nil, hr, ht⟩
  | cons y ys ih =>
    intro b zs xs h
    simp only [List.cons_append] at h
    cases h with
    | cons hr ht =>
      obtain ⟨us, v, ws, rfl, h1, h2, h3⟩ := ih b zs _ ht
      exact ⟨_ :: us, v, ws, rfl, List.Forall₂.cons hr h1, h2, h3⟩

/-- Each component of the all-empty list is a prefix of its partner. -/
theorem forall2_empties (ls : List (List Event)) :
    List.Forall₂ (fun a b => a <+: b) (ls.map fun _ => []) ls := by
  induction ls with
  | nil => exact List.Forall₂.nil
  | cons l ls ih => exact List.Forall₂.cons ⟨l, rfl⟩ ih

/-- A prefix of an interleaving is an interleaving of prefixes of the
per-task sequences: the consumed part of each task at an intermediate
point of the run. -/
theorem interleave_pre {ls : List (List Event)} {tr : List Event}
    (h : Interleave ls tr) :
    ∀ p, p <+: tr →
      ∃ ls', Interleave ls' p ∧ List.Forall₂ (fun a b => a <+: b) ls' ls := by
  induction h with
  | nil ls hl =>
    intro p hp
    obtain ⟨t, ht⟩ := hp
    obtain ⟨h1, h2⟩ := List.append_eq_nil.mp ht
    subst h1
    exact ⟨ls, Interleave.nil ls hl, List.forall₂_same.mpr fun x _ => ⟨[], List.append_nil x⟩⟩
  | take ls1 e t ls2 q hq ih =>
    intro p hp
    cases p with
    | nil =>
      refine ⟨(ls1 ++ (e :: t) :: ls2).map fun _ => [], Interleave.nil _ ?_, forall2_empties _⟩
      intro l hl
      obtain ⟨l', _, rfl⟩ := List.mem_map.mp hl
      rfl
    | cons e' p' =>
      obtain ⟨r, hr⟩ := hp
      rw [List.cons_append] at hr
      injection hr with h1 h2
      obtain ⟨ls'', hI, hF⟩ := ih p' ⟨r, h2⟩
      obtain ⟨us, v, ws, rfl, hf1, hf2, hf3⟩ := forall2_split ls1 t ls2 ls'' hF
      refine ⟨us ++ (e' :: v) :: ws, Interleave.take us e' v ws p' hI, ?_⟩
      apply forall2_app hf1
      apply List.Forall₂.cons ?_ hf3
      obtain ⟨w, hw⟩ := hf2
      rw [h1]
      exact ⟨w, by rw [List.cons_append, hw]⟩

/-- Summed counts over pointwise prefixes of shaped traces keep `found`
below `total`. -/
theorem forall2_count_le :
    ∀ {ls' ls : List (List Event)},
      List.Forall₂ (fun a b => a <+: b) ls' ls →
      (∀ l ∈ ls, TaskShape l) →
      (ls'.map fun l => l.count Event.incFound).sum ≤
        (ls'.map fun l => l.count Event.incTotal).sum := by
  intro ls' ls h
  induction h with
  | nil => intro _; simp
  | @cons a b as bs hr hrest ih =>
    intro hs
    simp only [List.map_cons, List.sum_cons]
    have hhead := shape_pre_count (hs b (by simp)) hr
    have htail := ih fun l hl => hs l (by simp [hl])
    omega

/-- C1: at every intermediate point of any concurrent run — any prefix
of any interleaving of the per-task increment sequences the scanner
spawns — the `found` counter is at most the `total` counter, and hence
also at completion.  Each task increments `total` for its non-directory
entry before it can possibly increment `found` (see `TaskShape`), and
the invariant survives arbitrary scheduling. -/
theorem found_le_total_always (cfg : Config) (roots : List Root)
    (tr p : List Event) (h : Interleave (runTraces cfg roots) tr)
    (hp : p <+: tr) : countF p ≤ countT p := by
  obtain ⟨ls', hI, hF⟩ := interleave_pre h p hp
  have hFc := interleave_count hI Event.incFound
  have hTc := interleave_count hI Event.incTotal
  rw [countF, countT, hFc, hTc]
  exact forall2_count_le hF (runTraces_shape cfg roots)

/-- Witness for C1: a one-file run whose full trace is one `total`
increment then one `found` increment; at the intermediate point after
the first event the invariant holds. -/
theorem found_le_total_always_witness :
    countF [Event.incTotal] ≤ countT [Event.incTotal] := by
  have e1 : runTraces cfgW [rootSmall] = [[], [Event.incTotal, Event.incFound]] := rfl
  have hnil : Interleave [[], []] [] := by
    apply Interleave.nil
    intro l hl
    simp only [List.mem_cons, List.mem_singleton] at hl
    rcases hl with h | h | h
    · exact h
    · exact h
    · exact absurd h (by simp)
  have h : Interleave (runTraces cfgW [rootSmall]) [Event.incTotal, Event.incFound] := by
    rw [e1]
    exact Interleave.take [[]] .incTotal [.incFound] [] _
      (Interleave.take [[]] .incFound [] [] _ hnil)
  exact found_le_total_always cfgW [rootSmall] _ [Event.incTotal] h ⟨[Event.incFound], rfl⟩

/-! ### The join barrier cannot fire early -/

/-- One wait-group step preserves "the counter equals the number of
registered, not-yet-Done tasks". -/
theorem wgStep_card {s t : Int × Multiset WTask} (h : WgStep s t)
    (hinv : s.1 = (Multiset.card s.2 : Int)) : t.1 = (Multiset.card t.2 : Int) := by
  cases h with
  | expand c S cs =>
    simp only [Multiset.card_cons] at hinv
    simp only [Multiset.card_cons, Multiset.card_add, Multiset.coe_card,
      List.length_map]
    rw [hinv]
    push_cast
    ring
  | retire c S =>
    simp only [Multiset.card_cons] at hinv
    rw [hinv]
    push_cast
    ring

/-- C3: the registration-before-dispatch discipline makes the join
barrier sound.  Every task is registered (counted in the wait group and
added to the pending multiset) in the same step in which its parent
spawns it, before it can take its own steps, and a parent's unit is
released only by its deferred `Done` after registering all children; the
invariant is that the counter always equals the number of pending tasks,
so `wg.Wait` (which fires at counter zero) cannot fire while any
transitively spawned task is still pending. -/
theorem wg_join_barrier (cfg : Config) (roots : List Root) (c : Int)
    (S : Multiset WTask)
    (h : Relation.ReflTransGen WgStep (wgInit cfg roots) (c, S)) :
    c = (Multiset.card S : Int) ∧ (c = 0 → S = 0) := by
  have key : ∀ st : Int × Multiset WTask,
      Relation.ReflTransGen WgStep (wgInit cfg roots) st →
      st.1 = (Multiset.card st.2 : Int) := by
    intro st hst
    induction hst with
    | refl => simp [wgInit]
    | tail hab hbc ih => exact wgStep_card hbc ih
  have h1 := key (c, S) h
  refine ⟨h1, ?_⟩
  intro hc
  rw [hc] at h1
  have h2 : Multiset.card S = 0 := by
    have h3 : ((0 : Int)) = ((Multiset.card S : Nat) : Int) := h1
    omega
  exact Multiset.card_eq_zero.mp h2

/-- Witness for C3: a one-root system stepped from its initial state
through the root task's expansion and its `Done` down to counter zero;
there the pending set is provably empty. -/
theorem wg_join_barrier_witness :
    (0 : Int) = (Multiset.card (0 : Multiset WTask) : Int) ∧
    ((0 : Int) = 0 → (0 : Multiset WTask) = 0) :=
  wg_join_barrier cfgW [⟨"d", some .nil⟩] 0 0
    (Relation.ReflTransGen.head (WgStep.expand 1 0 [])
      (Relation.ReflTransGen.head (WgStep.retire (1 + 0) 0)
        Relation.ReflTransGen.refl))

end Tagrep
